import Mathlib

/-!
Shallow embedding of `src/index.js` of lidarr-import-extras.

Conventions used throughout this development:

* Paths are POSIX strings.  A *resolved absolute* path string (the output of
  Node's `path.resolve` on an already absolute, clean input) is represented
  either directly as a `String`, or — where the algorithm works on
  `path.sep`-separated components — as the list of segments produced by
  splitting the string on `"/"`.  So `"/music/Artist/x.flac"` corresponds to
  `["", "music", "Artist", "x.flac"]` and the root `"/"` to `["", ""]`.
  `path.resolve` is modelled as the identity on such clean absolute inputs.
* Machine integers do not occur; inode numbers are `Nat` labels that identify
  which source file a hard link refers to.
* Filesystem side effects are modelled by explicit state passing: a directory
  is a list of named entries, and the functions of the program map an input
  directory state to an output state.  A thrown-and-propagated exception is
  modelled by an `Except` result or an explicit aborted flag, as noted at
  each definition.
-/

namespace LidarrImportExtras

/-- Joins path segments back into a string with `"/"`, modelling the
JavaScript `commonParts.join(path.sep)` on POSIX. -/
def joinSep (parts : List String) : String :=
  String.intercalate "/" parts

/-- Helper for `splitSep`: splits a character list at `'/'`, accumulating the
current segment in reverse. -/
def splitSepAux : List Char → List Char → List String
  | acc, [] => [String.mk acc.reverse]
  | acc, x :: xs =>
    if x = '/' then String.mk acc.reverse :: splitSepAux [] xs
    else splitSepAux (x :: acc) xs

/-- Splits a path string into its `"/"`-separated segments, modelling the
JavaScript `p.split(path.sep)` on POSIX: `splitSep "" = [""]`,
`splitSep "/" = ["", ""]`, `splitSep "/a/b" = ["", "a", "b"]`. -/
def splitSep (s : String) : List String :=
  splitSepAux [] s.toList

/-- Models JavaScript `s.startsWith(pre)` (character-level prefix test). -/
def strStartsWith (s pre : String) : Bool :=
  pre.toList.isPrefixOf s.toList

/-- Models Node's `path.dirname` on the segment form of a resolved absolute
POSIX path.  `path.dirname "/a/b" = "/a"`, `path.dirname "/a" = "/"` and
`path.dirname "/" = "/"`; on segment lists (where `"/"` is `["", ""]`) this
is `dropLast`, except that any path with at most two segments has the root
as its dirname. -/
def dirnameSegs (p : List String) : List String :=
  if p.length ≤ 2 then ["", ""] else p.dropLast

/-- The common prefix of two segment lists: the position-by-position walk of
the inner loop of `findCommonParentDir` (src/index.js lines 84-92), stopping
at the first position where the segments diverge or either list ends. -/
def commonPrefix2 : List String → List String → List String
  | x :: xs, y :: ys => if x = y then x :: commonPrefix2 xs ys else []
  | _, _ => []

/-- Embeds `findCommonParentDir` (src/index.js lines 70-99).  Input paths are
given in segment form (see the module docstring; the JavaScript first applies
`path.resolve`, modelled as the identity on clean absolute inputs, then
`path.dirname`, then `split(path.sep)`).  The loop over `i < minLen` that
pushes `splitDirs[0][i]` while every list agrees computes exactly the longest
common prefix of the split directory lists, expressed here as a fold of the
binary common-prefix function with `splitDirs[0]` as the start value.
A thrown `Error` (empty input) is `Except.error`; a returned `null` is
`Except.ok none`. -/
def findCommonParentDir (paths : List (List String)) : Except String (Option String) :=
  match paths with
  | [] => Except.error "No paths provided to findCommonParentDir"
  | p :: rest =>
    let commonParts := (rest.map dirnameSegs).foldl commonPrefix2 (dirnameSegs p)
    if commonParts.isEmpty then Except.ok none
    else Except.ok (some (joinSep commonParts))

/-- The fixed extension allowlist `EXTRA_ALLOWLIST` (src/index.js lines 12-23). -/
def EXTRA_ALLOWLIST : List String :=
  [".cue", ".log", ".png", ".jpg", ".jpeg", ".txt", ".m3u", ".m3u8", ".yml", ".yaml"]

/-- Index of the last occurrence of a character in a list, or `none`. -/
def lastIdxOf (c : Char) : List Char → Option Nat
  | [] => none
  | x :: xs =>
    match lastIdxOf c xs with
    | some i => some (i + 1)
    | none => if x = c then some 0 else none

/-- Models Node's `path.extname` on a basename (a name containing no path
separator, which is what `isExtraFile` receives).  Node returns the suffix
starting at the last `'.'`, except that it returns `""` when there is no
dot, when the only dot is the leading character (dotfiles such as
`".bashrc"`), or for the special name `".."`. -/
def extnameList (l : List Char) : List Char :=
  match lastIdxOf '.' l with
  | none => []
  | some 0 => []
  | some i => if l = ['.', '.'] then [] else l.drop i

/-- String form of `extnameList`. -/
def extname (s : String) : String :=
  String.mk (extnameList s.toList)

/-- Embeds `isExtraFile` (src/index.js lines 153-155):
`EXTRA_ALLOWLIST.includes(path.extname(filename).toLowerCase())`. -/
def isExtraFile (filename : String) : Bool :=
  EXTRA_ALLOWLIST.contains (String.mk ((extnameList filename.toList).map Char.toLower))

/-- A prefix substitution rule from the `pathMappings` configuration.  The
JavaScript fields are `from` and `to`; `from` is a Lean keyword, hence the
primes. -/
structure PathMapping where
  from' : String
  to' : String
deriving DecidableEq, Repr

/-- Embeds the rule loop of `applyPathMappings` (src/index.js lines 60-66):
try the rules in order, and on the first rule whose `from` is a prefix of the
input, return the input with that leading occurrence replaced by `to`.
JavaScript `inputPath.replace(map.from, map.to)` replaces the first
occurrence of `map.from`, which under the guard `inputPath.startsWith(map.from)`
is the leading one, so the result is `map.to` followed by the remainder of
the input (replacement-pattern escapes such as `"$$"` in `to` are not
modelled). -/
def applyMappingsLoop (inputPath : String) : List PathMapping → String
  | [] => inputPath
  | m :: rest =>
    if strStartsWith inputPath m.from' then m.to' ++ inputPath.drop m.from'.length
    else applyMappingsLoop inputPath rest

/-- Embeds `applyPathMappings` (src/index.js lines 58-68).  A missing or
non-array `mappings` value (`!mappings || !Array.isArray(mappings)`) is
modelled by `none` and returns the input unchanged. -/
def applyPathMappings (inputPath : String) (mappings : Option (List PathMapping)) : String :=
  match mappings with
  | none => inputPath
  | some ms => applyMappingsLoop inputPath ms

/-!
Filesystem model.  A directory's contents are a finite list of named entries
in the order the filesystem enumerates them (`fs.readdir`); an entry is a
regular file, identified by the `Nat` label of the inode it links to, or a
subdirectory with its own contents.  A real directory listing never repeats
a name; theorems that need this state it as a `Nodup` hypothesis.
-/

mutual
inductive FsEntry where
  | file (ino : Nat)
  | dir (entries : FsEntryList)
deriving DecidableEq, Repr

inductive FsEntryList where
  | nil
  | cons (name : String) (e : FsEntry) (rest : FsEntryList)
deriving DecidableEq, Repr
end

/-- The contents of the destination (album) directory. -/
abbrev Dest := List (String × FsEntry)

/-- Tests `st.isFile()` / `entry.isFile()` on an entry. -/
def isFileE : FsEntry → Bool
  | .file _ => true
  | .dir _ => false

/-- First entry with the given name, the view of a directory as a map. -/
def dlookup (n : String) : Dest → Option FsEntry
  | [] => none
  | (m, e) :: rest => if m = n then some e else dlookup n rest

/-- Models one `fs.unlink(full)` call inside `try {} catch {}`: the named
regular-file entry is removed if present; a directory of that name is left
in place (the unlink raises `EISDIR`/`EPERM`, which the caller catches), and
a missing name is a caught `ENOENT`. -/
def unlinkFile (n : String) (d : Dest) : Dest :=
  d.filter (fun e => !(e.1 == n && isFileE e.2))

/-- Whether a directory entry of the given name exists, in which case a
subsequent `fs.link` to that path fails with `EEXIST`. -/
def hasDirEntry (n : String) (d : Dest) : Bool :=
  d.any (fun e => e.1 == n && !isFileE e.2)

/-- Models a successful `fs.link(entryPath, dest)`: the destination directory
gains an entry of the given name referring to the source file's inode. -/
def pushFile (n : String) (i : Nat) (d : Dest) : Dest :=
  d ++ [(n, FsEntry.file i)]

/-- Embeds `removeExistingExtras` (src/index.js lines 157-169) as a map from
the destination directory's contents to its contents after the loop: every
entry that is a regular file and classifies as an extra is unlinked, every
other entry is untouched.  The per-entry `lstat`/`unlink` failures the code
catches are not modelled (no entry vanishes concurrently in this model); a
failure of `fs.readdir` itself would propagate, which at this level means
the function is only applied to a readable directory. -/
def removeExistingExtras : Dest → Dest
  | [] => []
  | (n, e) :: rest =>
    if isFileE e && isExtraFile n then removeExistingExtras rest
    else (n, e) :: removeExistingExtras rest

/-- The destination filename built by `linkExtrasRecursive`:
`base ? `${base}-${entry.name}` : entry.name`. -/
def flatName (base name : String) : String :=
  if base = "" then name else base ++ "-" ++ name

/-- Embeds `linkExtrasRecursive` (src/index.js lines 171-193).  The walk
threads the destination directory's contents and returns them together with
a completion flag: `true` means the loop finished, `false` means an
uncaught exception from `fs.link` aborted the whole walk (in the source only
the preceding `fs.unlink(dest)` sits inside `try {} catch {}`; the
`await fs.link(entryPath, dest)` on line 189 does not, so its rejection
propagates through every recursion level to the caller).  `fail ino` models
an environmental link failure (cross-device, permission) for links to the
given source inode; a link also fails when a directory entry still occupies
the destination name after the unlink attempt (`EEXIST`).  Directory entries
are descended with the extended name prefix; files are linked only when
`isExtraFile` accepts their name. -/
def linkExtrasRecursive (fail : Nat → Bool) : FsEntryList → String → Dest → Dest × Bool
  | .nil, _, dest => (dest, true)
  | .cons name (.dir sub) rest, base, dest =>
    let r := linkExtrasRecursive fail sub (flatName base name) dest
    if r.2 then linkExtrasRecursive fail rest base r.1 else (r.1, false)
  | .cons name (.file ino) rest, base, dest =>
    if isExtraFile name then
      let destFile := flatName base name
      let d1 := unlinkFile destFile dest
      if hasDirEntry destFile d1 || fail ino then (d1, false)
      else linkExtrasRecursive fail rest base (pushFile destFile ino d1)
    else linkExtrasRecursive fail rest base dest

/-- The depth-first sequence of (flattened destination name, source inode)
pairs of the extra files of a source tree — the files `linkExtrasRecursive`
attempts to link, in the order it attempts them. -/
def flattenExtras : FsEntryList → String → List (String × Nat)
  | .nil, _ => []
  | .cons name (.dir sub) rest, base =>
    flattenExtras sub (flatName base name) ++ flattenExtras rest base
  | .cons name (.file ino) rest, base =>
    (if isExtraFile name then [(flatName base name, ino)] else []) ++ flattenExtras rest base

/-- One link step of the walk on the flattened sequence: unlink the
destination name, then link, aborting on `EEXIST` (a directory entry
survived the unlink) or an environmental failure. -/
def linkFold (fail : Nat → Bool) : List (String × Nat) → Dest → Dest × Bool
  | [], d => (d, true)
  | (n, i) :: rest, d =>
    let d1 := unlinkFile n d
    if hasDirEntry n d1 || fail i then (d1, false)
    else linkFold fail rest (pushFile n i d1)

/-- The effect of a completed sequence of unlink-then-link steps. -/
def linkOkFold (l : List (String × Nat)) (d : Dest) : Dest :=
  l.foldl (fun d x => pushFile x.1 x.2 (unlinkFile x.1 d)) d

/-!
Orchestrator model.  The webhook handler (src/index.js lines 198-229) and
`getTorrentFolder` (lines 116-151) are embedded as pure functions over:
a configuration/collaborator environment (the loaded config's path mappings
and the qBittorrent responses, keyed by download id), a world holding the
contents of the two directories the run touches (the album directory that
the notified track paths resolve to, and the torrent source directory that
`getTorrentFolder` resolves), and the parsed request body.  HTTP responses
are (status, body) pairs; `qbtLogin` succeeding is a flag in the
environment.  The handler's `try { ... } catch { res.status(200) }` is
modelled by every internal failure producing a 200 outcome.
-/

/-- A torrent known to qBittorrent: its reported `save_path` and the
relative `name`s of its files (the `files.data` entries). -/
structure TorrentInfo where
  savePath : String
  files : List String
deriving Repr

/-- The external collaborators and configuration of one run. -/
structure Env where
  mappings : Option (List PathMapping)
  loginOk : Bool
  torrent : String → Option TorrentInfo

/-- The filesystem state a run touches: the album directory's contents, the
source tree's contents, and which source inodes hard links fail for. -/
structure World where
  album : Dest
  source : FsEntryList
  failLink : Nat → Bool

/-- One parsed webhook request body.  `none` fields model absent JSON
fields; `trackFiles` carries the `path` of each track record. -/
structure WebhookBody where
  eventType : Option String
  trackFiles : Option (List String)
  downloadId : Option String

/-- JavaScript falsiness of `body.downloadId`: absent or the empty string. -/
def jsFalsyId : Option String → Bool
  | none => true
  | some s => s = ""

/-- Steps of a run that mutate or commit to the album directory, recorded in
the order the handler performs them. -/
inductive Step where
  | resolvedAlbum (dir : String)
  | removedStale (dir : String)
  | resolvedSource (dir : String)
  | linked (src : String) (dir : String)
deriving DecidableEq, Repr

/-- Outcome of one webhook delivery: the HTTP acknowledgment, the steps
performed, and the album directory's final contents. -/
structure RunOutcome where
  status : Nat
  body : String
  trace : List Step
  album : Dest
deriving DecidableEq, Repr

/-- Embeds `getTorrentFolder` (src/index.js lines 116-151): look up the
torrent (`.error` for an unknown hash, matching the thrown
`Torrent ... not found`), remap its save path, fail on an empty file list,
join the save path with each file's relative name (`path.join`, which on
clean inputs is concatenation with one separator) and take the common parent
directory; a falsy `commonPrefix` (`null` or `""`) is the thrown
`Could not identify common root`. -/
def getTorrentFolder (env : Env) (downloadId : String) : Except String String :=
  match env.torrent downloadId with
  | none => Except.error ("Torrent " ++ downloadId ++ " not found in qBittorrent")
  | some t =>
    let savePath := applyPathMappings t.savePath env.mappings
    if t.files.isEmpty then Except.error ("No files listed for torrent " ++ downloadId)
    else
      match findCommonParentDir (t.files.map (fun n => splitSep (savePath ++ "/" ++ n))) with
      | Except.error e => Except.error e
      | Except.ok none => Except.error "Could not identify common root for torrent folder files"
      | Except.ok (some p) =>
        if p = "" then Except.error "Could not identify common root for torrent folder files"
        else Except.ok p

/-- Embeds the `app.post("/webhook")` handler (src/index.js lines 198-229).
The order of operations is the source's: the `Test` short-circuit, the
`!body.trackFiles || !body.downloadId` validation (note that an *empty*
`trackFiles` array is truthy in JavaScript and passes this check), album
directory resolution with its falsiness check, **then `removeExistingExtras`
on the album directory, then `qbtLogin`, then `getTorrentFolder`**, then
`linkExtrasRecursive`.  Everything after the validation sits inside
`try { ... } catch { res.status(200).send("OK") }`, so every internal
failure — a resolution failure, a login failure, or an exception escaping
the linker — still acknowledges 200. -/
def handleWebhook (env : Env) (world : World) (body : WebhookBody) : RunOutcome :=
  if body.eventType = some "Test" then
    ⟨200, "OK", [], world.album⟩
  else if body.trackFiles = none || jsFalsyId body.downloadId then
    ⟨400, "Invalid payload", [], world.album⟩
  else
    match findCommonParentDir ((body.trackFiles.getD []).map splitSep) with
    | Except.error _ => ⟨200, "OK", [], world.album⟩
    | Except.ok none => ⟨200, "OK", [], world.album⟩
    | Except.ok (some albumPath) =>
      if albumPath = "" then ⟨200, "OK", [], world.album⟩
      else
        let album1 := removeExistingExtras world.album
        let tr1 := [Step.resolvedAlbum albumPath, Step.removedStale albumPath]
        if !env.loginOk then ⟨200, "OK", tr1, album1⟩
        else
          match getTorrentFolder env (body.downloadId.getD "") with
          | Except.error _ => ⟨200, "OK", tr1, album1⟩
          | Except.ok originalDir =>
            let r := linkExtrasRecursive world.failLink world.source "" album1
            ⟨200, "OK", tr1 ++ [Step.resolvedSource originalDir, Step.linked originalDir albumPath],
              r.1⟩

/-!
Specification-side predicates used to state the claims.  These are phrased
from the spec's vocabulary (absolute paths, directories, being located under
a directory, deepest common directory) over the segment representation.
-/

/-- A clean absolute POSIX file path in segment form: a leading empty
segment for the root, then at least one nonempty segment, the last being
the filename.  `"/music/x.flac"` is `["", "music", "x.flac"]`. -/
def isAbsFileSegs (p : List String) : Prop :=
  ∃ rest, p = "" :: rest ∧ rest ≠ [] ∧ "" ∉ rest

/-- A clean absolute POSIX directory in segment form: the root `["", ""]`
(the split of `"/"`), or a leading empty segment followed by nonempty
segments. -/
def isAbsDirSegs (d : List String) : Prop :=
  d = ["", ""] ∨ (∃ rest, d = "" :: rest ∧ rest ≠ [] ∧ "" ∉ rest)

/-- The segment sequence a directory contributes as an ancestor: the root
contributes just the leading empty segment (it is an ancestor of every
absolute path), any other directory contributes its full segment list. -/
def dirKey (d : List String) : List String :=
  if d = ["", ""] then [""] else d

/-- A file path is located under a directory (at any depth) when the
directory's ancestor key is a prefix of the segments of the path's parent
directory. -/
def underDir (d p : List String) : Prop :=
  dirKey d <+: dirnameSegs p

/-- The inode of the last link attempt for a destination name in a flattened
extras sequence, the survivor after the walk replays the sequence in order. -/
def lastA (n : String) : List (String × Nat) → Option Nat
  | [] => none
  | (m, i) :: rest =>
    match lastA n rest with
    | some j => some j
    | none => if m = n then some i else none

/-- A filename in which no extension separator precedes a suffix: no dot at
all, or a leading dot that is the only dot (`".log"`, `".cue"`). -/
def noDotBeyondHead (name : String) : Prop :=
  match name.toList with
  | [] => True
  | _ :: t => '.' ∉ t

/-!
Theorems.  Each claim of the specification has exactly one main theorem
below, with helper lemmas shared between them.
-/

/-- Helper: a character that does not occur in the list has no last index. -/
theorem lastIdxOf_eq_none {c : Char} {l : List Char} (h : c ∉ l) :
    lastIdxOf c l = none := by
  induction l with
  | nil => rfl
  | cons x xs ih =>
    have hx : ¬x = c := fun hxc => h (hxc ▸ List.mem_cons_self x xs)
    have hxs : c ∉ xs := fun hm => h (List.mem_cons_of_mem x hm)
    simp [lastIdxOf, ih hxs, hx]

/-- Helper: a name with no dot past its first character has an empty
extension. -/
theorem extnameList_eq_nil_of_noDotBeyondHead {name : String}
    (h : noDotBeyondHead name) : extnameList name.toList = [] := by
  unfold noDotBeyondHead at h
  cases hl : name.toList with
  | nil => rfl
  | cons c t =>
    rw [hl] at h
    have ht : lastIdxOf '.' t = none := lastIdxOf_eq_none h
    by_cases hc : c = '.'
    · simp [extnameList, lastIdxOf, ht, hc]
    · simp [extnameList, lastIdxOf, ht, hc]

/-- C10: a filename with no extension separator before its suffix — in
particular a dotfile whose leading dot is its only dot, such as `".log"` or
`".cue"` — is classified as not an extra (its modelled `path.extname` is the
empty string, which is not in the allowlist); consequently
`removeExistingExtras` keeps any such regular-file entry of the destination,
and `linkExtrasRecursive` treats a file entry of that name as a skip: the
walk continues exactly as if the entry were absent, never linking it. -/
theorem dotfile_is_never_extra (name : String) (h : noDotBeyondHead name) :
    isExtraFile name = false
    ∧ (∀ (d : Dest) (i : Nat),
        (name, FsEntry.file i) ∈ d → (name, FsEntry.file i) ∈ removeExistingExtras d)
    ∧ (∀ (fail : Nat → Bool) (rest : FsEntryList) (base : String) (dest : Dest) (i : Nat),
        linkExtrasRecursive fail (.cons name (.file i) rest) base dest
          = linkExtrasRecursive fail rest base dest) := by
  have hext : isExtraFile name = false := by
    unfold isExtraFile
    rw [extnameList_eq_nil_of_noDotBeyondHead h]
    decide
  refine ⟨hext, ?_, ?_⟩
  · intro d i hmem
    induction d with
    | nil => cases hmem
    | cons he rest ih =>
      obtain ⟨m, e⟩ := he
      rcases List.mem_cons.mp hmem with heq | htail
      · cases heq
        simp [removeExistingExtras, hext]
      · unfold removeExistingExtras
        by_cases hcond : (isFileE e && isExtraFile m) = true
        · simpa [hcond] using ih htail
        · simp only [Bool.not_eq_true] at hcond
          simp [hcond]
          exact Or.inr (ih htail)
  · intro fail rest base dest i
    simp [linkExtrasRecursive, hext]

/-- C10 witness: the literal dotfile `".log"` — whose bare name equals an
allowlisted suffix — is not an extra. -/
theorem dotfile_is_never_extra_witness : isExtraFile ".log" = false :=
  (dotfile_is_never_extra ".log" (show ('.' : Char) ∉ ['l', 'o', 'g'] by decide)).1

/-- C6: the path mapper applies at most one rule, namely the first rule of
the list whose `from` string is a prefix of the input path, and the result
replaces exactly that leading occurrence of `from` by `to` (the tail of the
path after `from` is kept verbatim); when no rule's `from` is a prefix —
and likewise when no mapping list is configured — the path is returned
unchanged. -/
theorem applyPathMappings_first_matching_rule (p : String) (ms : List PathMapping) :
    (applyPathMappings p (some ms) =
      match ms.find? (fun m => strStartsWith p m.from') with
      | none => p
      | some m => m.to' ++ p.drop m.from'.length)
    ∧ applyPathMappings p none = p := by
  refine ⟨?_, rfl⟩
  induction ms with
  | nil => rfl
  | cons m rest ih =>
    show applyMappingsLoop p (m :: rest) = _
    unfold applyMappingsLoop
    cases hm : strStartsWith p m.from' with
    | true => simp [List.find?, hm]
    | false => simpa [List.find?, hm] using ih

/-- C8: the stale-extras remover deletes exactly those immediate entries of
the destination directory that are regular files classified as extras: an
entry survives the pass if and only if it was present and is not an
extra-classified regular file, and every subdirectory entry is kept whole —
with all its contents, so files inside subdirectories are never deleted. -/
theorem removeExistingExtras_exact (d : Dest) :
    (∀ (n : String) (e : FsEntry),
      ((n, e) ∈ removeExistingExtras d
        ↔ (n, e) ∈ d ∧ ¬(isFileE e = true ∧ isExtraFile n = true)))
    ∧ (∀ (n : String) (sub : FsEntryList),
        (n, FsEntry.dir sub) ∈ d → (n, FsEntry.dir sub) ∈ removeExistingExtras d) := by
  have hf : removeExistingExtras d = d.filter (fun x => !(isFileE x.2 && isExtraFile x.1)) := by
    induction d with
    | nil => rfl
    | cons he rest ih =>
      obtain ⟨m, e⟩ := he
      unfold removeExistingExtras
      by_cases h : (isFileE e && isExtraFile m) = true
      · simp [List.filter, h, ih]
      · simp only [Bool.not_eq_true] at h
        simp [List.filter, h, ih]
  constructor
  · intro n e
    rw [hf, List.mem_filter]
    simp [Bool.and_eq_true]
    intro _
    cases hb : isFileE e <;> simp [hb]
  · intro n sub hmem
    rw [hf, List.mem_filter]
    exact ⟨hmem, by simp [isFileE]⟩

/-- C9: syncing the source tree `root/cover.jpg`, `root/disc1/log.log`,
`root/disc1/readme.nfo` into an empty destination produces exactly the two
entries `cover.jpg` (linked to the source `cover.jpg`) and `disc1-log.log`
(the dash-joined intermediate directory name followed by the original
filename, linked to the source `log.log`), the walk completing; and
`readme.nfo` is absent because `.nfo` is not an allowlisted extension. -/
theorem scenario_flattened_sync :
    linkExtrasRecursive (fun _ => false)
      (.cons "cover.jpg" (.file 0)
        (.cons "disc1"
          (.dir (.cons "log.log" (.file 1) (.cons "readme.nfo" (.file 2) .nil))) .nil))
      "" []
      = ([("cover.jpg", FsEntry.file 0), ("disc1-log.log", FsEntry.file 1)], true)
    ∧ isExtraFile "readme.nfo" = false := by
  constructor
  · decide
  · decide

/-- C3 counterexample: a notification carrying an *empty* track list (and a
valid download id) is not rejected with a client error: the empty array
passes the `!body.trackFiles` truthiness check, the subsequent
`findCommonParentDir([])` exception is swallowed by the handler's catch
block, and the delivery is acknowledged 200 "OK", not 400. -/
theorem empty_tracklist_acknowledged_ok :
    (handleWebhook ⟨none, true, fun _ => none⟩ ⟨[], FsEntryList.nil, fun _ => false⟩
        ⟨none, some [], some "abc123"⟩).status = 200
    ∧ (handleWebhook ⟨none, true, fun _ => none⟩ ⟨[], FsEntryList.nil, fun _ => false⟩
        ⟨none, some [], some "abc123"⟩).status ≠ 400 := by
  constructor
  · rfl
  · decide

/-- C3 amended: a notification whose `trackFiles` field is absent, or whose
download identifier is absent or empty, is rejected with the client error
400 (unless it is a `Test` event, which short-circuits to 200); every other
delivery — including one whose *present but empty* track list makes
`findCommonParentDir` throw, and every resolution or I/O failure during
processing — is acknowledged with status 200. -/
theorem webhook_ack_characterization (env : Env) (world : World) (body : WebhookBody) :
    ((handleWebhook env world body).status = 400
      ↔ (body.eventType ≠ some "Test"
          ∧ (body.trackFiles = none ∨ jsFalsyId body.downloadId = true)))
    ∧ ((handleWebhook env world body).status = 200
        ∨ (handleWebhook env world body).status = 400) := by
  unfold handleWebhook
  by_cases ht : body.eventType = some "Test"
  · simp [ht]
  · rw [if_neg ht]
    by_cases hv : (body.trackFiles = none ∨ jsFalsyId body.downloadId = true)
    · have hb : (decide (body.trackFiles = none) || jsFalsyId body.downloadId) = true := by
        rcases hv with h | h
        · simp [h]
        · simp [h]
      rw [if_pos hb]
      simpa using ⟨ht, hv⟩
    · have hb : (decide (body.trackFiles = none) || jsFalsyId body.downloadId) = false := by
        push_neg at hv
        simp [hv.1, hv.2]
      rw [if_neg (by simp [hb])]
      constructor
      · constructor
        · intro habs
          exfalso
          revert habs
          split <;> (try split) <;> (try split) <;> (try split) <;> simp
        · intro ⟨_, hcontra⟩
          exact absurd hcontra hv
      · left
        split <;> (try split) <;> (try split) <;> (try split) <;> simp

/-- C5: when the notified track paths share no path segment beyond the
filesystem root — the longest common segment prefix of their parent
directories is just the leading root marker `[""]` — the resolver does not
raise: it returns the falsy result `""` (the join of `[""]`), the "none"
signal that every caller tests with `!commonPrefix`; the webhook run on such
paths terminates as an absorbed failure, acknowledged 200 with no
stale-extras removal and no linking performed and the album directory left
untouched.  And the resolver throws its invalid-input error exactly when its
input sequence is empty. -/
theorem root_only_common_ancestor_fails_run :
    (∀ (env : Env) (world : World) (et : Option String) (t : String) (ts : List String)
        (did : String),
      et ≠ some "Test" → did ≠ "" →
      (ts.map (dirnameSegs ∘ splitSep)).foldl commonPrefix2 (dirnameSegs (splitSep t)) = [""] →
      findCommonParentDir ((t :: ts).map splitSep) = Except.ok (some "")
      ∧ handleWebhook env world ⟨et, some (t :: ts), some did⟩
          = ⟨200, "OK", [], world.album⟩)
    ∧ (∀ paths : List (List String),
        (∃ e, findCommonParentDir paths = Except.error e) ↔ paths = []) := by
  constructor
  · intro env world et t ts did ht hdid hcp
    have hfc : findCommonParentDir ((t :: ts).map splitSep) = Except.ok (some "") := by
      simp only [List.map_cons, findCommonParentDir, List.map_map, hcp]
      rfl
    refine ⟨hfc, ?_⟩
    unfold handleWebhook
    rw [if_neg ht]
    have hb : (decide ((some (t :: ts) : Option (List String)) = none)
        || jsFalsyId (some did)) = false := by
      simp [jsFalsyId, hdid]
    rw [if_neg (by rw [hb]; simp)]
    simp only [Option.getD_some]
    rw [hfc]
    rfl
  · intro paths
    constructor
    · rintro ⟨e, he⟩
      cases paths with
      | nil => rfl
      | cons p rest =>
        simp only [findCommonParentDir] at he
        by_cases h : ((rest.map dirnameSegs).foldl commonPrefix2 (dirnameSegs p)).isEmpty = true
        · rw [if_pos h] at he
          cases he
        · rw [if_neg h] at he
          cases he
    · rintro rfl
      exact ⟨_, rfl⟩

/-- C5 witness: the run on the track paths `/a/f.txt` and `/b/g.txt`, which
share only the root, fails with a 200 acknowledgment, an empty step trace
and an untouched album directory holding a stale extra. -/
theorem root_only_common_ancestor_fails_run_witness :
    handleWebhook ⟨none, true, fun _ => none⟩
        ⟨[("x.log", FsEntry.file 3)], FsEntryList.nil, fun _ => false⟩
        ⟨none, some ["/a/f.txt", "/b/g.txt"], some "deadbeef"⟩
      = ⟨200, "OK", [], [("x.log", FsEntry.file 3)]⟩ :=
  (root_only_common_ancestor_fails_run.1 ⟨none, true, fun _ => none⟩
      ⟨[("x.log", FsEntry.file 3)], FsEntryList.nil, fun _ => false⟩
      none "/a/f.txt" ["/b/g.txt"] "deadbeef"
      (by decide) (by decide) (by decide)).2

/-- Helper: the binary common prefix is a prefix of its left argument. -/
theorem commonPrefix2_prefix_left : ∀ (a b : List String), commonPrefix2 a b <+: a
  | [], _ => by simp [commonPrefix2]
  | _ :: _, [] => by simp [commonPrefix2]
  | x :: xs, y :: ys => by
    unfold commonPrefix2
    by_cases h : x = y
    · rw [if_pos h]
      exact List.cons_prefix_cons.mpr ⟨rfl, commonPrefix2_prefix_left xs ys⟩
    · rw [if_neg h]
      exact List.nil_prefix

/-- Helper: the binary common prefix is a prefix of its right argument. -/
theorem commonPrefix2_prefix_right : ∀ (a b : List String), commonPrefix2 a b <+: b
  | [], _ => by simp [commonPrefix2]
  | _ :: _, [] => by simp [commonPrefix2]
  | x :: xs, y :: ys => by
    unfold commonPrefix2
    by_cases h : x = y
    · rw [if_pos h]
      exact List.cons_prefix_cons.mpr ⟨h, commonPrefix2_prefix_right xs ys⟩
    · rw [if_neg h]
      exact List.nil_prefix

/-- Helper: the binary common prefix is the greatest common prefix. -/
theorem prefix_commonPrefix2 {c a b : List String} (ha : c <+: a) (hb : c <+: b) :
    c <+: commonPrefix2 a b := by
  induction c generalizing a b with
  | nil => exact List.nil_prefix
  | cons z zs ih =>
    cases a with
    | nil => exact absurd ha.length_le (by simp)
    | cons x xs =>
      cases b with
      | nil => exact absurd hb.length_le (by simp)
      | cons y ys =>
        obtain ⟨hzx, ha'⟩ := List.cons_prefix_cons.mp ha
        obtain ⟨hzy, hb'⟩ := List.cons_prefix_cons.mp hb
        subst hzx
        subst hzy
        unfold commonPrefix2
        rw [if_pos rfl]
        exact List.cons_prefix_cons.mpr ⟨rfl, ih ha' hb'⟩

/-- Helper: the fold of the binary common prefix refines its start value. -/
theorem foldl_commonPrefix2_init (l : List (List String)) :
    ∀ init, l.foldl commonPrefix2 init <+: init := by
  induction l with
  | nil => exact fun init => List.prefix_refl _
  | cons x xs ih =>
    exact fun init => (ih (commonPrefix2 init x)).trans (commonPrefix2_prefix_left init x)

/-- Helper: the fold of the binary common prefix refines every list element. -/
theorem foldl_commonPrefix2_mem (l : List (List String)) :
    ∀ init, ∀ x ∈ l, l.foldl commonPrefix2 init <+: x := by
  induction l with
  | nil => intro _ x hx; cases hx
  | cons a as ih =>
    intro init x hx
    rcases List.mem_cons.mp hx with rfl | hx'
    · exact (foldl_commonPrefix2_init as _).trans (commonPrefix2_prefix_right init x)
    · exact ih _ x hx'

/-- Helper: any common prefix of the start value and all elements is a
prefix of the fold of the binary common prefix. -/
theorem prefix_foldl_commonPrefix2 {c : List String} (l : List (List String)) :
    ∀ init, c <+: init → (∀ x ∈ l, c <+: x) → c <+: l.foldl commonPrefix2 init := by
  induction l with
  | nil => exact fun init hi _ => hi
  | cons a as ih =>
    intro init hi h
    exact ih _ (prefix_commonPrefix2 hi (h a (List.mem_cons_self a as)))
      (fun x hx => h x (List.mem_cons_of_mem a hx))

/-- Helper: a modelled dirname is never the empty segment list. -/
theorem dirnameSegs_ne_nil (p : List String) : dirnameSegs p ≠ [] := by
  unfold dirnameSegs
  by_cases h : p.length ≤ 2
  · simp [h]
  · rw [if_neg h]
    intro hc
    have h2 := congrArg List.length hc
    rw [List.length_dropLast] at h2
    simp at h2
    omega

/-- Helper: the dirname of a clean absolute file path is a clean absolute
directory. -/
theorem dirnameSegs_isAbsDir {p : List String} (hp : isAbsFileSegs p) :
    isAbsDirSegs (dirnameSegs p) := by
  obtain ⟨rest, rfl, hne, hnm⟩ := hp
  unfold dirnameSegs
  by_cases h : ("" :: rest).length ≤ 2
  · rw [if_pos h]
    exact Or.inl rfl
  · rw [if_neg h]
    cases rest with
    | nil => exact absurd rfl hne
    | cons r rs =>
      refine Or.inr ⟨(r :: rs).dropLast, by simp, ?_, ?_⟩
      · intro hdrop
        have h2 := congrArg List.length hdrop
        simp only [List.length_dropLast_cons, List.length_nil] at h2
        simp only [List.length_cons] at h
        omega
      · intro hm
        exact hnm (List.Sublist.mem hm (List.dropLast_sublist (r :: rs)))

/-- Helper: the ancestor key of a non-root clean absolute directory is
itself. -/
theorem dirKey_eq_self {d : List String} (hroot : d ≠ ["", ""]) : dirKey d = d := by
  unfold dirKey
  rw [if_neg hroot]

/-- C4 counterexample: the claim fails when the deepest directory containing
all the paths is the filesystem root.  For `/a/f.txt` and `/b/g.txt` the
root `["", ""]` (the segment form of `"/"`) is a common — and the deepest
common — directory of both absolute paths, yet `findCommonParentDir`
returns `Except.ok (some "")` (the falsy no-ancestor signal, `[""]` joined),
not the root `"/"`. -/
theorem deepest_common_dir_root_cex :
    ([["", "a", "f.txt"], ["", "b", "g.txt"]] : List (List String)) ≠ []
    ∧ (∀ p ∈ [["", "a", "f.txt"], ["", "b", "g.txt"]], isAbsFileSegs p)
    ∧ isAbsDirSegs ["", ""]
    ∧ (∀ p ∈ [["", "a", "f.txt"], ["", "b", "g.txt"]], underDir ["", ""] p)
    ∧ (∀ d : List String, isAbsDirSegs d →
        (∀ p ∈ [["", "a", "f.txt"], ["", "b", "g.txt"]], underDir d p) →
        (dirKey d).length ≤ (dirKey ["", ""]).length)
    ∧ findCommonParentDir [["", "a", "f.txt"], ["", "b", "g.txt"]]
        ≠ Except.ok (some (joinSep ["", ""])) := by
  refine ⟨by decide, ?_, Or.inl rfl, ?_, ?_, ?_⟩
  · intro p hp
    simp only [List.mem_cons, List.not_mem_nil, or_false] at hp
    rcases hp with rfl | rfl
    · exact ⟨["a", "f.txt"], rfl, by decide, by decide⟩
    · exact ⟨["b", "g.txt"], rfl, by decide, by decide⟩
  · intro p hp
    simp only [List.mem_cons, List.not_mem_nil, or_false] at hp
    rcases hp with rfl | rfl
    · exact ⟨["a"], by decide⟩
    · exact ⟨["b"], by decide⟩
  · intro d hd hunder
    have h1 : dirKey d <+: ["", "a"] := hunder ["", "a", "f.txt"] (by simp)
    have h2 : dirKey d <+: ["", "b"] := hunder ["", "b", "g.txt"] (by simp)
    by_cases hlen : (dirKey d).length ≤ 1
    · simpa using hlen
    · exfalso
      have e1 : dirKey d = ["", "a"] := h1.eq_of_length_le (by simp; omega)
      have e2 : dirKey d = ["", "b"] := h2.eq_of_length_le (by simp; omega)
      rw [e1] at e2
      simp at e2
  · intro hcon
    have heval : findCommonParentDir [["", "a", "f.txt"], ["", "b", "g.txt"]]
        = Except.ok (some "") := by rfl
    rw [heval] at hcon
    injection hcon with h1
    injection h1 with h2
    rw [show joinSep ["", ""] = "/" from rfl] at h2
    exact (by decide : ("" : String) ≠ "/") h2

/-- C4 amended: for every non-empty list of clean absolute paths all located
under a common directory `D`, where `D` is the deepest such directory,
`findCommonParentDir` returns exactly `D` (joined into its string form)
**provided `D` is deeper than the filesystem root** — when the deepest
common directory is the root itself and some path's parent is not the root,
the function instead returns the falsy `""`, as the counterexample shows;
and for an input list containing a single absolute path it returns that
path's direct parent directory unconditionally. -/
theorem deepest_common_dir_resolved :
    (∀ (ps : List (List String)) (D : List String), ps ≠ [] →
      (∀ p ∈ ps, isAbsFileSegs p) →
      isAbsDirSegs D → D ≠ ["", ""] →
      (∀ p ∈ ps, underDir D p) →
      (∀ d, isAbsDirSegs d → (∀ p ∈ ps, underDir d p) →
        (dirKey d).length ≤ (dirKey D).length) →
      findCommonParentDir ps = Except.ok (some (joinSep D)))
    ∧ (∀ p, isAbsFileSegs p →
        findCommonParentDir [p] = Except.ok (some (joinSep (dirnameSegs p)))) := by
  constructor
  · intro ps D hne hfiles hD hroot hunder hdeep
    obtain ⟨restD, hDeq, hrne, hrnm⟩ :=
      hD.resolve_left (fun h => absurd h hroot)
    cases ps with
    | nil => exact absurd rfl hne
    | cons p0 prest =>
      have hkey : dirKey D = D := dirKey_eq_self hroot
      obtain ⟨L, hL⟩ :
          ∃ L, (prest.map dirnameSegs).foldl commonPrefix2 (dirnameSegs p0) = L := ⟨_, rfl⟩
      have hunder' : ∀ p ∈ p0 :: prest, D <+: dirnameSegs p := by
        intro p hp
        have h := hunder p hp
        unfold underDir at h
        rwa [hkey] at h
      have hDL : D <+: L := by
        rw [← hL]
        refine prefix_foldl_commonPrefix2 _ _ (hunder' p0 (List.mem_cons_self _ _)) ?_
        intro x hx
        obtain ⟨q, hq, rfl⟩ := List.mem_map.mp hx
        exact hunder' q (List.mem_cons_of_mem _ hq)
      have hLp0 : L <+: dirnameSegs p0 := by
        rw [← hL]
        exact foldl_commonPrefix2_init _ _
      have hDlen2 : 2 ≤ D.length := by
        rw [hDeq]
        cases restD with
        | nil => exact absurd rfl hrne
        | cons r rs => simp
      have hLlen2 : 2 ≤ L.length := le_trans hDlen2 hDL.length_le
      have hLne : L ≠ [] := by
        intro hc
        rw [hc] at hLlen2
        simp at hLlen2
      rcases dirnameSegs_isAbsDir (hfiles p0 (List.mem_cons_self _ _)) with hr | ⟨t, ht, htne, htnm⟩
      · exfalso
        rw [hr] at hLp0
        have hD2 : D <+: ["", ""] := hDL.trans hLp0
        exact hroot (hD2.eq_of_length_le (by simpa using hDlen2))
      · obtain ⟨l0, ls, hLcase⟩ := List.exists_cons_of_ne_nil hLne
        have hLp0' := hLp0
        rw [ht, hLcase] at hLp0'
        obtain ⟨hl0, hls⟩ := List.cons_prefix_cons.mp hLp0'
        subst hl0
        have hlsne : ls ≠ [] := by
          rw [hLcase] at hLlen2
          intro hc
          rw [hc] at hLlen2
          simp at hLlen2
        have hlsnm : "" ∉ ls := fun hm => htnm (hls.mem hm)
        have hLroot : L ≠ ["", ""] := by
          rw [hLcase]
          intro hc
          injection hc with h1 h2
          rw [h2] at hlsnm
          exact hlsnm (List.mem_cons_self "" [])
        have hLshape : isAbsDirSegs L := Or.inr ⟨ls, hLcase, hlsne, hlsnm⟩
        have hLunder : ∀ p ∈ p0 :: prest, underDir L p := by
          intro p hp
          unfold underDir
          rw [dirKey_eq_self hLroot]
          rcases List.mem_cons.mp hp with rfl | hp'
          · exact hLp0
          · rw [← hL]
            exact foldl_commonPrefix2_mem _ _ _ (List.mem_map_of_mem dirnameSegs hp')
        have hdeepL := hdeep L hLshape hLunder
        rw [dirKey_eq_self hLroot, hkey] at hdeepL
        have hLD : L = D := (hDL.eq_of_length_le hdeepL).symm
        have hfc : findCommonParentDir (p0 :: prest)
            = if L.isEmpty = true then Except.ok none
              else Except.ok (some (joinSep L)) := by
          rw [← hL]
          rfl
        rw [hfc, hLD]
        have hDempty : D.isEmpty = false := by
          rw [hDeq]
          rfl
        rw [hDempty]
        simp
  · intro p hp
    show findCommonParentDir [p] = _
    unfold findCommonParentDir
    simp only [List.map_nil, List.foldl_nil]
    have : (dirnameSegs p).isEmpty = false := by
      cases hc : dirnameSegs p with
      | nil => exact absurd hc (dirnameSegs_ne_nil p)
      | cons _ _ => rfl
    rw [this]
    simp

/-- C4 witness: the two track paths of the album scenario resolve to the
album directory `/music/Artist/Album`, the deepest directory containing
both. -/
theorem deepest_common_dir_resolved_witness :
    findCommonParentDir
        [["", "music", "Artist", "Album", "01.flac"],
          ["", "music", "Artist", "Album", "02.flac"]]
      = Except.ok (some "/music/Artist/Album") := by
  have h := deepest_common_dir_resolved.1
    [["", "music", "Artist", "Album", "01.flac"],
      ["", "music", "Artist", "Album", "02.flac"]]
    ["", "music", "Artist", "Album"]
    (by decide)
    (by
      intro p hp
      simp only [List.mem_cons, List.not_mem_nil, or_false] at hp
      rcases hp with rfl | rfl
      · exact ⟨["music", "Artist", "Album", "01.flac"], rfl, by decide, by decide⟩
      · exact ⟨["music", "Artist", "Album", "02.flac"], rfl, by decide, by decide⟩)
    (Or.inr ⟨["music", "Artist", "Album"], rfl, by decide, by decide⟩)
    (by decide)
    (by
      intro p hp
      simp only [List.mem_cons, List.not_mem_nil, or_false] at hp
      rcases hp with rfl | rfl
      · exact ⟨[], by decide⟩
      · exact ⟨[], by decide⟩)
    (by
      intro d hd hunder
      have h1 : dirKey d <+: dirnameSegs ["", "music", "Artist", "Album", "01.flac"] :=
        hunder ["", "music", "Artist", "Album", "01.flac"] (by simp)
      exact h1.length_le.trans (le_of_eq (by decide)))
  rw [h]
  rfl

/-- Helper: one unlink step on a cons cell of a directory listing. -/
theorem unlinkFile_cons (m k : String) (en : FsEntry) (rest : Dest) :
    unlinkFile m ((k, en) :: rest)
      = if (k == m && isFileE en) = true then unlinkFile m rest
        else (k, en) :: unlinkFile m rest := by
  unfold unlinkFile
  rw [List.filter_cons]
  by_cases h : (k == m && isFileE en) = true
  · rw [if_pos h]
    have hb : (!((k, en).1 == m && isFileE (k, en).2)) = false := by
      show (!(k == m && isFileE en)) = false
      rw [h]
      rfl
    rw [hb]
    simp
  · rw [if_neg h]
    have hx : (k == m && isFileE en) = false := by
      revert h
      cases (k == m && isFileE en) <;> simp
    have hb : (!((k, en).1 == m && isFileE (k, en).2)) = true := by
      show (!(k == m && isFileE en)) = true
      rw [hx]
      rfl
    rw [hb]
    simp

/-- Helper: the directory-entry test on a cons cell of a listing. -/
theorem hasDirEntry_cons (n k : String) (en : FsEntry) (rest : Dest) :
    hasDirEntry n ((k, en) :: rest)
      = ((k == n && !isFileE en) || hasDirEntry n rest) := by
  unfold hasDirEntry
  simp [List.any_cons]

/-- Helper: unlinking a file leaves directory entries in place. -/
theorem hasDirEntry_unlinkFile (n m : String) (d : Dest) :
    hasDirEntry n (unlinkFile m d) = hasDirEntry n d := by
  induction d with
  | nil => rfl
  | cons e rest ih =>
    obtain ⟨k, en⟩ := e
    rw [unlinkFile_cons]
    by_cases h : (k == m && isFileE en) = true
    · rw [if_pos h, ih, hasDirEntry_cons]
      have hfile : isFileE en = true := (Bool.and_eq_true _ _).mp h |>.2
      rw [hfile]
      simp
    · rw [if_neg h, hasDirEntry_cons, hasDirEntry_cons, ih]

/-- Helper: linking a file adds no directory entry. -/
theorem hasDirEntry_pushFile (n m : String) (i : Nat) (d : Dest) :
    hasDirEntry n (pushFile m i d) = hasDirEntry n d := by
  unfold hasDirEntry pushFile
  rw [List.any_append]
  simp [isFileE]

/-- Helper: the link fold distributes over list append, continuing with the
intermediate destination when the first part completes and aborting
otherwise. -/
theorem linkFold_append (fail : Nat → Bool) (xs ys : List (String × Nat)) (d : Dest) :
    linkFold fail (xs ++ ys) d =
      (if (linkFold fail xs d).2 = true then linkFold fail ys (linkFold fail xs d).1
       else linkFold fail xs d) := by
  induction xs generalizing d with
  | nil => simp [linkFold]
  | cons x xs ih =>
    obtain ⟨n, i⟩ := x
    simp only [List.cons_append, linkFold]
    by_cases h : (hasDirEntry n (unlinkFile n d) || fail i) = true
    · simp [h]
    · simp [h, ih]

/-- Helper: the recursive walk of `linkExtrasRecursive` equals the fold of
the unlink-then-link step over the depth-first flattened extras sequence. -/
theorem linkExtrasRecursive_eq_fold (fail : Nat → Bool) :
    ∀ (es : FsEntryList) (base : String) (dest : Dest),
      linkExtrasRecursive fail es base dest = linkFold fail (flattenExtras es base) dest
  | .nil, base, dest => by
    simp [linkExtrasRecursive, flattenExtras, linkFold]
  | .cons name (.dir sub) rest, base, dest => by
    have ih1 := linkExtrasRecursive_eq_fold fail sub (flatName base name) dest
    simp only [linkExtrasRecursive, flattenExtras, linkFold_append, ih1]
    by_cases h : (linkFold fail (flattenExtras sub (flatName base name)) dest).2 = true
    · rw [if_pos h, if_pos h]
      exact linkExtrasRecursive_eq_fold fail rest base _
    · rw [if_neg h, if_neg h]
      have h2 : (linkFold fail (flattenExtras sub (flatName base name)) dest).2 = false := by
        revert h
        cases (linkFold fail (flattenExtras sub (flatName base name)) dest).2 <;> simp
      rw [← h2]
  | .cons name (.file ino) rest, base, dest => by
    by_cases hx : isExtraFile name = true
    · simp only [linkExtrasRecursive, flattenExtras, hx, if_pos, List.cons_append,
        List.nil_append, linkFold]
      by_cases h : (hasDirEntry (flatName base name) (unlinkFile (flatName base name) dest)
          || fail ino) = true
      · simp [h]
      · simp only [h, if_neg, Bool.false_eq_true, if_false]
        exact linkExtrasRecursive_eq_fold fail rest base _
    · simp only [Bool.not_eq_true] at hx
      simp only [linkExtrasRecursive, flattenExtras, hx, Bool.false_eq_true, if_false,
        List.nil_append]
      exact linkExtrasRecursive_eq_fold fail rest base dest

/-- C2 amended: an `fs.link` failure is *not* caught: it aborts the whole
recursive walk, the exception propagating to the orchestrator (whose catch
block absorbs it).  Precisely, when the depth-first extras sequence splits
as `pre ++ (n0, i0) :: post` with every link in `pre` succeeding (no
environmental failure and no directory entry squatting on its destination
name) and the link for `i0` failing, the walk performs exactly the links of
`pre`, removes the stale destination entry `n0`, then stops: every extra
file before the failing one is linked, and no extra file after it — in
particular none of `post` — is processed. -/
theorem link_failure_aborts_walk (fail : Nat → Bool) (src : FsEntryList)
    (pre : List (String × Nat)) (n0 : String) (i0 : Nat) (post : List (String × Nat))
    (dest : Dest)
    (hflat : flattenExtras src "" = pre ++ (n0, i0) :: post)
    (hpre : ∀ x ∈ pre, fail x.2 = false)
    (hfail : fail i0 = true)
    (hdirs : ∀ x ∈ pre, hasDirEntry x.1 dest = false) :
    linkExtrasRecursive fail src "" dest
      = (unlinkFile n0 (linkOkFold pre dest), false) := by
  rw [linkExtrasRecursive_eq_fold, hflat]
  clear hflat
  induction pre generalizing dest with
  | nil =>
    simp only [List.nil_append, linkFold, linkOkFold, List.foldl_nil, hfail, Bool.or_true]
    rfl
  | cons x xs ih =>
    obtain ⟨n, i⟩ := x
    have hfi : fail i = false := hpre (n, i) (List.mem_cons_self _ _)
    have hdi : hasDirEntry n dest = false := hdirs (n, i) (List.mem_cons_self _ _)
    simp only [List.cons_append, linkFold, hasDirEntry_unlinkFile, hdi, hfi, Bool.or_false,
      Bool.false_eq_true, if_false]
    have hres := ih (pushFile n i (unlinkFile n dest))
      (fun y hy => hpre y (List.mem_cons_of_mem _ hy))
      (fun y hy => by
        rw [hasDirEntry_pushFile, hasDirEntry_unlinkFile]
        exact hdirs y (List.mem_cons_of_mem _ hy))
    exact hres

/-- C2 counterexample: a source tree of two eligible extras `a.log` and
`b.log` in which exactly one file's link fails (the one to inode 0,
`a.log`): the claim demands that every other eligible extra still be linked,
but the walk aborts and `b.log` is not linked — the destination ends empty
with the aborted flag set. -/
theorem one_link_failure_skips_rest_cex :
    flattenExtras (.cons "a.log" (.file 0) (.cons "b.log" (.file 1) .nil)) ""
      = [("a.log", 0), ("b.log", 1)]
    ∧ ((fun i => i == 0) 0 = true ∧ (fun i => i == 0) 1 = false)
    ∧ linkExtrasRecursive (fun i => i == 0)
        (.cons "a.log" (.file 0) (.cons "b.log" (.file 1) .nil)) "" [] = ([], false)
    ∧ dlookup "b.log"
        (linkExtrasRecursive (fun i => i == 0)
          (.cons "a.log" (.file 0) (.cons "b.log" (.file 1) .nil)) "" []).1 = none := by
  exact ⟨by decide, ⟨by decide, by decide⟩, by decide, by decide⟩

/-- C2 witness: with links failing exactly for inode 1 (`b.log`), the walk
over `a.log`, `b.log`, `c.log` links `a.log`, stops at `b.log`, and never
reaches `c.log`. -/
theorem link_failure_aborts_walk_witness :
    linkExtrasRecursive (fun i => i == 1)
      (.cons "a.log" (.file 0) (.cons "b.log" (.file 1) (.cons "c.log" (.file 2) .nil)))
      "" [] = ([("a.log", FsEntry.file 0)], false) := by
  have h := link_failure_aborts_walk (fun i => i == 1)
    (.cons "a.log" (.file 0) (.cons "b.log" (.file 1) (.cons "c.log" (.file 2) .nil)))
    [("a.log", 0)] "b.log" 1 [("c.log", 2)] []
    (by decide) (by decide) (by decide) (by decide)
  exact h.trans (by decide)

/-- C1 counterexample: a run whose source-directory resolution fails with an
unknown download identifier has nonetheless already performed stale-extras
removal on the album directory: the album directory loses its stale
`stale.jpg` (it ends empty) and the trace records the removal step, while
the claim demands that no removal happen on such a failed run. -/
theorem removal_despite_source_failure_cex :
    (∃ e, getTorrentFolder ⟨some [], true, fun _ => none⟩ "unknownhash" = Except.error e)
    ∧ handleWebhook ⟨some [], true, fun _ => none⟩
        ⟨[("stale.jpg", FsEntry.file 7)], FsEntryList.nil, fun _ => false⟩
        ⟨none, some ["/music/A/B/01.flac", "/music/A/B/02.flac"], some "unknownhash"⟩
      = ⟨200, "OK", [Step.resolvedAlbum "/music/A/B", Step.removedStale "/music/A/B"], []⟩ := by
  exact ⟨⟨_, rfl⟩, by decide⟩

/-- C1 amended: the orchestrator's actual order is: resolve the album
directory from the track paths, **remove stale extras from the album
directory**, then resolve the source directory via the torrent collaborator
(login, lookup), then link new extras — stale removal precedes source
resolution.  Consequently, on a run whose source-directory resolution fails
(unknown download identifier, empty torrent file list, or no common ancestor
of the torrent files), stale-extras removal *has already been performed* on
the album directory, though no linking has; the failure is absorbed and
acknowledged 200.  On a fully successful run the recorded step order is:
album resolution, stale removal, source resolution, linking. -/
theorem orchestrator_step_order (env : Env) (world : World) (body : WebhookBody)
    (tfs : List String) (albumPath : String)
    (ht : body.eventType ≠ some "Test")
    (htf : body.trackFiles = some tfs)
    (hdid : jsFalsyId body.downloadId = false)
    (hres : findCommonParentDir (tfs.map splitSep) = Except.ok (some albumPath))
    (hne : albumPath ≠ "")
    (hlogin : env.loginOk = true) :
    (∀ e, getTorrentFolder env (body.downloadId.getD "") = Except.error e →
      handleWebhook env world body
        = ⟨200, "OK", [Step.resolvedAlbum albumPath, Step.removedStale albumPath],
            removeExistingExtras world.album⟩)
    ∧ (∀ srcDir, getTorrentFolder env (body.downloadId.getD "") = Except.ok srcDir →
        handleWebhook env world body
          = ⟨200, "OK",
              [Step.resolvedAlbum albumPath, Step.removedStale albumPath,
                Step.resolvedSource srcDir, Step.linked srcDir albumPath],
              (linkExtrasRecursive world.failLink world.source ""
                (removeExistingExtras world.album)).1⟩) := by
  have hunf : handleWebhook env world body
      = match getTorrentFolder env (body.downloadId.getD "") with
        | Except.error _ =>
          ⟨200, "OK", [Step.resolvedAlbum albumPath, Step.removedStale albumPath],
            removeExistingExtras world.album⟩
        | Except.ok originalDir =>
          ⟨200, "OK",
            [Step.resolvedAlbum albumPath, Step.removedStale albumPath,
              Step.resolvedSource originalDir, Step.linked originalDir albumPath],
            (linkExtrasRecursive world.failLink world.source ""
              (removeExistingExtras world.album)).1⟩ := by
    unfold handleWebhook
    rw [if_neg ht]
    have hb : (decide (body.trackFiles = none) || jsFalsyId body.downloadId) = false := by
      rw [htf, hdid]
      simp
    rw [if_neg (by rw [hb]; simp)]
    rw [htf]
    simp only [Option.getD_some]
    simp only [hres]
    rw [if_neg hne]
    rw [if_neg (by rw [hlogin]; simp)]
    rfl
  constructor
  · intro e he
    rw [hunf, he]
  · intro srcDir hs
    rw [hunf, hs]

/-- C1 witness: a concrete run with an unknown download identifier in which
the amended order is visible: album resolved, stale extra removed, source
resolution failed, nothing linked. -/
theorem orchestrator_step_order_witness :
    handleWebhook ⟨some [], true, fun _ => none⟩
        ⟨[("stale.jpg", FsEntry.file 7)], FsEntryList.nil, fun _ => false⟩
        ⟨none, some ["/m/A/01.flac"], some "h1"⟩
      = ⟨200, "OK", [Step.resolvedAlbum "/m/A", Step.removedStale "/m/A"], []⟩ := by
  have h := (orchestrator_step_order ⟨some [], true, fun _ => none⟩
      ⟨[("stale.jpg", FsEntry.file 7)], FsEntryList.nil, fun _ => false⟩
      ⟨none, some ["/m/A/01.flac"], some "h1"⟩
      ["/m/A/01.flac"] "/m/A"
      (by decide) rfl rfl rfl (by decide) rfl).1 _ rfl
  exact h.trans (by decide)

/-- Helper: one lookup step on a cons cell of a directory listing. -/
theorem dlookup_cons (n m : String) (e : FsEntry) (rest : Dest) :
    dlookup n ((m, e) :: rest) = if m = n then some e else dlookup n rest := rfl

/-- Helper: lookup in an appended listing searches the front part first. -/
theorem dlookup_append (n : String) (a b : Dest) :
    dlookup n (a ++ b)
      = match dlookup n a with
        | some e => some e
        | none => dlookup n b := by
  induction a with
  | nil => rfl
  | cons x rest ih =>
    obtain ⟨m, e⟩ := x
    rw [List.cons_append, dlookup_cons, dlookup_cons]
    by_cases h : m = n
    · rw [if_pos h, if_pos h]
    · rw [if_neg h, if_neg h, ih]

/-- Helper: a name not among the listing's names looks up to nothing. -/
theorem dlookup_eq_none_of_not_mem {n : String} {d : Dest}
    (h : n ∉ d.map Prod.fst) : dlookup n d = none := by
  induction d with
  | nil => rfl
  | cons x rest ih =>
    obtain ⟨m, e⟩ := x
    rw [dlookup_cons]
    simp only [List.map_cons, List.mem_cons] at h
    push_neg at h
    rw [if_neg (fun hc => h.1 hc.symm)]
    exact ih h.2

/-- Helper: unlinking one name leaves lookups of other names unchanged. -/
theorem dlookup_unlinkFile_ne {n m : String} (hne : n ≠ m) (d : Dest) :
    dlookup n (unlinkFile m d) = dlookup n d := by
  induction d with
  | nil => rfl
  | cons x rest ih =>
    obtain ⟨k, e⟩ := x
    rw [unlinkFile_cons, dlookup_cons]
    by_cases h : (k == m && isFileE e) = true
    · rw [if_pos h, ih]
      have hk : k = m := by
        have := (Bool.and_eq_true _ _).mp h
        exact eq_of_beq this.1
      rw [if_neg (fun hc => hne (by rw [← hc, hk]))]
    · rw [if_neg h, dlookup_cons, ih]

/-- Helper: when no directory entry bears the name, unlinking it removes
every entry of that name from the listing's names. -/
theorem not_mem_unlink_names {m : String} {d : Dest}
    (hdir : hasDirEntry m d = false) : m ∉ (unlinkFile m d).map Prod.fst := by
  induction d with
  | nil => simp [unlinkFile]
  | cons x rest ih =>
    obtain ⟨k, e⟩ := x
    rw [hasDirEntry_cons] at hdir
    have h1 : (k == m && !isFileE e) = false := by
      revert hdir
      cases (k == m && !isFileE e) <;> simp
    have h2 : hasDirEntry m rest = false := by
      revert hdir
      cases hasDirEntry m rest <;> simp
    rw [unlinkFile_cons]
    by_cases h : (k == m && isFileE e) = true
    · rw [if_pos h]
      exact ih h2
    · rw [if_neg h]
      simp only [List.map_cons, List.mem_cons]
      rintro (hkm | hmem)
      · have hk : (k == m) = true := by
          rw [hkm]
          exact beq_self_eq_true k
        have hfile : isFileE e = false := by
          revert h
          rw [hk]
          cases isFileE e <;> simp
        have hcontra : (k == m && !isFileE e) = true := by
          rw [hk, hfile]
          rfl
        exact absurd (hcontra.symm.trans h1) (by decide)
      · exact ih h2 hmem

/-- Helper: one removal step on a cons cell of a directory listing. -/
theorem removeExistingExtras_cons (m : String) (e : FsEntry) (rest : Dest) :
    removeExistingExtras ((m, e) :: rest)
      = if (isFileE e && isExtraFile m) = true then removeExistingExtras rest
        else (m, e) :: removeExistingExtras rest := rfl

/-- Helper: the removal pass yields a sublist of the original listing. -/
theorem removeExistingExtras_sublist (d : Dest) : List.Sublist (removeExistingExtras d) d := by
  induction d with
  | nil => exact List.Sublist.refl _
  | cons x rest ih =>
    obtain ⟨m, e⟩ := x
    rw [removeExistingExtras_cons]
    by_cases h : (isFileE e && isExtraFile m) = true
    · rw [if_pos h]
      exact ih.cons _
    · rw [if_neg h]
      exact ih.cons₂ _

/-- Helper: the removal pass keeps directory entries. -/
theorem hasDirEntry_remove (n : String) (d : Dest) :
    hasDirEntry n (removeExistingExtras d) = hasDirEntry n d := by
  induction d with
  | nil => rfl
  | cons x rest ih =>
    obtain ⟨m, e⟩ := x
    rw [removeExistingExtras_cons, hasDirEntry_cons]
    by_cases h : (isFileE e && isExtraFile m) = true
    · rw [if_pos h, ih]
      have hf : isFileE e = true := ((Bool.and_eq_true _ _).mp h).1
      rw [hf]
      simp
    · rw [if_neg h, hasDirEntry_cons, ih]

/-- Helper: on a listing with distinct names, the removal pass maps each
lookup to nothing when the entry was an extra-classified file and to the
original entry otherwise. -/
theorem dlookup_remove {d : Dest} (hnd : (d.map Prod.fst).Nodup) (n : String) :
    dlookup n (removeExistingExtras d)
      = match dlookup n d with
        | some e => if (isFileE e && isExtraFile n) = true then none else some e
        | none => none := by
  induction d with
  | nil => rfl
  | cons x rest ih =>
    obtain ⟨m, e⟩ := x
    simp only [List.map_cons, List.nodup_cons] at hnd
    obtain ⟨hmn, hrest⟩ := hnd
    rw [removeExistingExtras_cons]
    by_cases hm : m = n
    · subst hm
      have hrhs : dlookup m ((m, e) :: rest) = some e := by
        rw [dlookup_cons, if_pos rfl]
      rw [hrhs]
      show dlookup m (if (isFileE e && isExtraFile m) = true
          then removeExistingExtras rest else (m, e) :: removeExistingExtras rest)
        = if (isFileE e && isExtraFile m) = true then none else some e
      by_cases hdel : (isFileE e && isExtraFile m) = true
      · rw [if_pos hdel, if_pos hdel]
        have hnm : m ∉ (removeExistingExtras rest).map Prod.fst := by
          intro hmem
          exact hmn (List.Sublist.mem hmem ((removeExistingExtras_sublist rest).map Prod.fst))
        exact dlookup_eq_none_of_not_mem hnm
      · rw [if_neg hdel, if_neg hdel, dlookup_cons]
        simp
    · have hrhs : dlookup n ((m, e) :: rest) = dlookup n rest := by
        rw [dlookup_cons, if_neg hm]
      rw [hrhs]
      by_cases hdel : (isFileE e && isExtraFile m) = true
      · rw [if_pos hdel]
        exact ih hrest
      · rw [if_neg hdel, dlookup_cons, if_neg hm]
        exact ih hrest

/-- Helper: a completed no-failure link fold implies that no flattened name
was blocked by a directory entry. -/
theorem linkFold_complete_no_dirs {E : List (String × Nat)} :
    ∀ {d : Dest}, (linkFold (fun _ => false) E d).2 = true →
      ∀ x ∈ E, hasDirEntry x.1 d = false := by
  induction E with
  | nil => intro d _ x hx; cases hx
  | cons y E' ih =>
    obtain ⟨m, i⟩ := y
    intro d h x hx
    by_cases hc : hasDirEntry m (unlinkFile m d) = true
    · exfalso
      have hstep : linkFold (fun _ => false) ((m, i) :: E') d = (unlinkFile m d, false) := by
        show (if (hasDirEntry m (unlinkFile m d) || (fun _ : Nat => false) i) = true
            then (unlinkFile m d, false)
            else linkFold (fun _ => false) E' (pushFile m i (unlinkFile m d)))
          = (unlinkFile m d, false)
        rw [if_pos (by rw [hc]; rfl)]
      rw [hstep] at h
      cases h
    · have hcf : hasDirEntry m (unlinkFile m d) = false := by
        revert hc
        cases hasDirEntry m (unlinkFile m d) <;> simp
      have hstep : linkFold (fun _ => false) ((m, i) :: E') d
          = linkFold (fun _ => false) E' (pushFile m i (unlinkFile m d)) := by
        show (if (hasDirEntry m (unlinkFile m d) || (fun _ : Nat => false) i) = true
            then (unlinkFile m d, false)
            else linkFold (fun _ => false) E' (pushFile m i (unlinkFile m d)))
          = linkFold (fun _ => false) E' (pushFile m i (unlinkFile m d))
        rw [if_neg (by rw [hcf]; simp)]
      rw [hstep] at h
      rcases List.mem_cons.mp hx with rfl | hx'
      · rw [← hasDirEntry_unlinkFile m m d] at *
        exact hcf
      · have hr := ih h x hx'
        rwa [hasDirEntry_pushFile, hasDirEntry_unlinkFile] at hr

/-- Helper: a no-failure link fold over names not blocked by directory
entries completes, keeps names distinct, keeps the directory entries of the
destination, and maps each name to the file of the *last* link attempt for
it, leaving all other names' lookups unchanged. -/
theorem linkFold_ok_char (E : List (String × Nat)) :
    ∀ (d : Dest), (d.map Prod.fst).Nodup →
      (∀ x ∈ E, hasDirEntry x.1 d = false) →
      (linkFold (fun _ => false) E d).2 = true
      ∧ ((linkFold (fun _ => false) E d).1.map Prod.fst).Nodup
      ∧ (∀ m, hasDirEntry m (linkFold (fun _ => false) E d).1 = hasDirEntry m d)
      ∧ (∀ n, dlookup n (linkFold (fun _ => false) E d).1
          = match lastA n E with
            | some i => some (FsEntry.file i)
            | none => dlookup n d) := by
  induction E with
  | nil =>
    intro d hnd _
    exact ⟨rfl, hnd, fun _ => rfl, fun _ => rfl⟩
  | cons y E' ih =>
    obtain ⟨m, i⟩ := y
    intro d hnd hdirs
    have hdm : hasDirEntry m d = false := hdirs (m, i) (List.mem_cons_self _ _)
    have hcf : hasDirEntry m (unlinkFile m d) = false := by
      rw [hasDirEntry_unlinkFile]
      exact hdm
    have hstep : linkFold (fun _ => false) ((m, i) :: E') d
        = linkFold (fun _ => false) E' (pushFile m i (unlinkFile m d)) := by
      show (if (hasDirEntry m (unlinkFile m d) || (fun _ : Nat => false) i) = true
          then (unlinkFile m d, false)
          else linkFold (fun _ => false) E' (pushFile m i (unlinkFile m d)))
        = linkFold (fun _ => false) E' (pushFile m i (unlinkFile m d))
      rw [if_neg (by rw [hcf]; simp)]
    have hmnotin : m ∉ (unlinkFile m d).map Prod.fst := not_mem_unlink_names hdm
    have hnd1 : ((pushFile m i (unlinkFile m d)).map Prod.fst).Nodup := by
      unfold pushFile
      rw [List.map_append]
      refine List.Nodup.append ?_ (by simp) ?_
      · exact List.Nodup.sublist ((List.filter_sublist d).map Prod.fst) hnd
      · intro a ha hb
        simp only [List.map_cons, List.map_nil, List.mem_singleton] at hb
        subst hb
        exact hmnotin ha
    have hlook1 : ∀ n, dlookup n (pushFile m i (unlinkFile m d))
        = if n = m then some (FsEntry.file i) else dlookup n d := by
      intro n
      unfold pushFile
      rw [dlookup_append]
      by_cases hnm : n = m
      · subst hnm
        simp [dlookup_eq_none_of_not_mem hmnotin, dlookup_cons]
      · rw [dlookup_unlinkFile_ne hnm, if_neg hnm]
        cases hval : dlookup n d with
        | some e => rfl
        | none =>
          show dlookup n [(m, FsEntry.file i)] = none
          rw [dlookup_cons, if_neg (fun hc => hnm hc.symm)]
          rfl
    have hdirs1 : ∀ x ∈ E', hasDirEntry x.1 (pushFile m i (unlinkFile m d)) = false := by
      intro x hx
      rw [hasDirEntry_pushFile, hasDirEntry_unlinkFile]
      exact hdirs x (List.mem_cons_of_mem _ hx)
    obtain ⟨hc2, hcnd, hcdirs, hclook⟩ := ih (pushFile m i (unlinkFile m d)) hnd1 hdirs1
    refine ⟨by rw [hstep]; exact hc2, by rw [hstep]; exact hcnd, ?_, ?_⟩
    · intro m'
      rw [hstep, hcdirs m', hasDirEntry_pushFile, hasDirEntry_unlinkFile]
    · intro n
      rw [hstep, hclook n]
      cases hE : lastA n E' with
      | some j =>
        have hcons : lastA n ((m, i) :: E') = some j := by
          show (match lastA n E' with
            | some j => some j
            | none => if m = n then some i else none) = some j
          rw [hE]
        rw [hcons]
      | none =>
        have hcons : lastA n ((m, i) :: E') = if m = n then some i else none := by
          show (match lastA n E' with
            | some j => some j
            | none => if m = n then some i else none) = if m = n then some i else none
          rw [hE]
        rw [hcons, hlook1 n]
        by_cases hmn : m = n
        · rw [if_pos hmn, if_pos hmn.symm]
        · rw [if_neg hmn, if_neg (fun hc => hmn hc.symm)]

/-- C7: syncing twice — `removeExistingExtras` then `linkExtrasRecursive`,
against an unchanged source tree with no link failures — is idempotent:
provided the destination directory's names are distinct (a real directory
listing) and the first run's walk completes, the second run's walk also
completes and the destination after the second run is identical to the
destination after the first: the same set of names, each looking up to the
same entry (the same hard-link target for files, the same untouched
subdirectory otherwise). -/
theorem sync_idempotent (src : FsEntryList) (dest : Dest)
    (hnd : (dest.map Prod.fst).Nodup)
    (hok : (linkExtrasRecursive (fun _ => false) src ""
        (removeExistingExtras dest)).2 = true) :
    (∀ n, dlookup n (linkExtrasRecursive (fun _ => false) src ""
        (removeExistingExtras
          (linkExtrasRecursive (fun _ => false) src "" (removeExistingExtras dest)).1)).1
      = dlookup n
          (linkExtrasRecursive (fun _ => false) src "" (removeExistingExtras dest)).1)
    ∧ (linkExtrasRecursive (fun _ => false) src ""
        (removeExistingExtras
          (linkExtrasRecursive (fun _ => false) src "" (removeExistingExtras dest)).1)).2
      = true := by
  simp only [linkExtrasRecursive_eq_fold] at hok ⊢
  have hnd0 : ((removeExistingExtras dest).map Prod.fst).Nodup :=
    List.Nodup.sublist ((removeExistingExtras_sublist dest).map Prod.fst) hnd
  have hdirs0 : ∀ x ∈ flattenExtras src "",
      hasDirEntry x.1 (removeExistingExtras dest) = false :=
    linkFold_complete_no_dirs hok
  obtain ⟨h1ok, h1nd, h1dirs, h1look⟩ :=
    linkFold_ok_char (flattenExtras src "") (removeExistingExtras dest) hnd0 hdirs0
  have hnd1 : ((removeExistingExtras
      (linkFold (fun _ => false) (flattenExtras src "")
        (removeExistingExtras dest)).1).map Prod.fst).Nodup :=
    List.Nodup.sublist ((removeExistingExtras_sublist _).map Prod.fst) h1nd
  have hdirs1 : ∀ x ∈ flattenExtras src "",
      hasDirEntry x.1 (removeExistingExtras
        (linkFold (fun _ => false) (flattenExtras src "")
          (removeExistingExtras dest)).1) = false := by
    intro x hx
    rw [hasDirEntry_remove, h1dirs]
    exact hdirs0 x hx
  obtain ⟨h2ok, h2nd, h2dirs, h2look⟩ :=
    linkFold_ok_char (flattenExtras src "")
      (removeExistingExtras
        (linkFold (fun _ => false) (flattenExtras src "")
          (removeExistingExtras dest)).1) hnd1 hdirs1
  refine ⟨?_, h2ok⟩
  intro n
  rw [h2look n, h1look n]
  cases hE : lastA n (flattenExtras src "") with
  | some i => rfl
  | none =>
    rw [dlookup_remove h1nd n, h1look n, hE, dlookup_remove hnd n]
    cases hv : dlookup n dest with
    | none => rfl
    | some e =>
      by_cases hcond : (isFileE e && isExtraFile n) = true
      · simp [hcond]
      · simp [hcond]

/-- C7 witness: one concrete double run — source `a.log`, destination
holding a stale `a.log`, a non-extra `notes.abc` and a subdirectory — in
which the second run reproduces the first run's destination. -/
theorem sync_idempotent_witness :
    dlookup "a.log" (linkExtrasRecursive (fun _ => false)
        (FsEntryList.cons "a.log" (FsEntry.file 1) FsEntryList.nil) ""
        (removeExistingExtras
          (linkExtrasRecursive (fun _ => false)
            (FsEntryList.cons "a.log" (FsEntry.file 1) FsEntryList.nil) ""
            (removeExistingExtras
              [("a.log", FsEntry.file 9), ("notes.abc", FsEntry.file 5),
                ("sub", FsEntry.dir FsEntryList.nil)])).1)).1
      = dlookup "a.log" (linkExtrasRecursive (fun _ => false)
          (FsEntryList.cons "a.log" (FsEntry.file 1) FsEntryList.nil) ""
          (removeExistingExtras
            [("a.log", FsEntry.file 9), ("notes.abc", FsEntry.file 5),
              ("sub", FsEntry.dir FsEntryList.nil)])).1 := by
  exact (sync_idempotent
    (FsEntryList.cons "a.log" (FsEntry.file 1) FsEntryList.nil)
    [("a.log", FsEntry.file 9), ("notes.abc", FsEntry.file 5),
      ("sub", FsEntry.dir FsEntryList.nil)]
    (by decide) (by decide)).1 "a.log"

end LidarrImportExtras
